import Mathlib

/-!
Verification development for the tksq compression pipeline.

The TypeScript sources are shallowly embedded over `Str := List Char`:
JavaScript strings become char lists, the specific regular expressions used
by the code become dedicated scanning functions with JS `String.replace`
semantics (leftmost, non-overlapping, callback replacement reading offsets
of the input string), and `Map`/object state becomes insertion-ordered
association lists (JS objects preserve string-key insertion order and
`Array.prototype.sort` is stable).
-/

namespace Tksq

/-- Strings of the embedded program: JS strings as lists of characters. -/
abbrev Str := List Char

/-- Coerce a Lean string literal into the embedding's string type. -/
def str (s : String) : Str := s.data

/-- JS regex `\w`: `[a-zA-Z0-9_]` (ASCII word character). -/
def jsIsWordChar (c : Char) : Bool :=
  (97 ≤ c.toNat && c.toNat ≤ 122) || (65 ≤ c.toNat && c.toNat ≤ 90) ||
  (48 ≤ c.toNat && c.toNat ≤ 57) || c.toNat == 95

/-- JS regex `\s` / `String.prototype.trim` whitespace set. -/
def jsIsWsChar (c : Char) : Bool :=
  let n := c.toNat
  n == 32 || (9 ≤ n && n ≤ 13) || n == 160 || n == 0x1680 ||
  (0x2000 ≤ n && n ≤ 0x200a) || n == 0x2028 || n == 0x2029 ||
  n == 0x202f || n == 0x205f || n == 0x3000 || n == 0xfeff

/-- JS regex line terminators, which `.` does not match:
LF, CR, U+2028, U+2029. -/
def isJsLineTerm (c : Char) : Bool :=
  c.toNat == 10 || c.toNat == 13 || c.toNat == 0x2028 || c.toNat == 0x2029

/-- ASCII `toLowerCase` on one character. -/
def asciiLowerChar (c : Char) : Char :=
  if 65 ≤ c.toNat && c.toNat ≤ 90 then Char.ofNat (c.toNat + 32) else c

/-- ASCII `toUpperCase` on one character. -/
def asciiUpperChar (c : Char) : Char :=
  if 97 ≤ c.toNat && c.toNat ≤ 122 then Char.ofNat (c.toNat - 32) else c

/-- ASCII `toLowerCase` on a string. -/
def lowerStr (t : Str) : Str := t.map asciiLowerChar

/-- ASCII `toUpperCase` on a string. -/
def upperStr (t : Str) : Str := t.map asciiUpperChar

/-- JS `text[i]` as an optional character. -/
def charAt? (t : Str) (i : Nat) : Option Char := (t.drop i).head?

/-- The substring of `t` starting at `i` of length `len` (clipped). -/
def sliceAt (t : Str) (i len : Nat) : Str := (t.drop i).take len

/-- Does the literal `pat` occur at position `i` of `t`
(case-insensitively when `ci`)?  Requires the full pattern to fit. -/
def sliceIs (t : Str) (i : Nat) (pat : Str) (ci : Bool) : Bool :=
  let s := sliceAt t i pat.length
  s.length == pat.length && (if ci then lowerStr s == lowerStr pat else s == pat)

/-- Is the character at position `i` a word character (out of range: no)? -/
def wordAt (t : Str) (i : Nat) : Bool :=
  match charAt? t i with
  | some c => jsIsWordChar c
  | none => false

/-- JS regex `\b` holds between positions `i-1` and `i`. -/
def wbAt (t : Str) (i : Nat) : Bool :=
  (if i = 0 then false else wordAt t (i - 1)) != wordAt t i

/-- Length of the run of characters satisfying `p` starting at `i`. -/
def runLen (p : Char → Bool) (t : Str) (i : Nat) : Nat :=
  ((t.drop i).takeWhile p).length

/-- The `Change` audit record emitted by a stage for each rewrite. -/
structure Change where
  original : Str
  replacement : Str
  position : Nat
  rule : String
deriving DecidableEq

/-- What a matcher does at one position: how many characters the match
consumes, the text emitted in its place, and the audit records. -/
structure MatchAct where
  len : Nat
  out : Str
  changes : List Change
deriving DecidableEq

/-- Scan `t` from position `i` with `fuel` steps left, applying `step` at
each position: a JS global-regex `replace` loop (leftmost matches,
non-overlapping, unmatched characters copied verbatim). -/
def scanAux (step : Nat → Option MatchAct) (t : Str) : Nat → Nat → Str × List Change
  | 0, i => (t.drop i, [])
  | Nat.succ fuel, i =>
    if i < t.length then
      match step i with
      | some a =>
        let rest := scanAux step t fuel (i + max a.len 1)
        (a.out ++ rest.1, a.changes ++ rest.2)
      | none =>
        let rest := scanAux step t fuel (i + 1)
        (sliceAt t i 1 ++ rest.1, rest.2)
    else ([], [])

/-- Run a global-regex replacement over all of `t`. -/
def runScan (step : Nat → Option MatchAct) (t : Str) : Str × List Change :=
  scanAux step t t.length 0

/-- The NUL character used by the preserver's placeholders. -/
def nulChar : Char := Char.ofNat 0

/-- ASCII digit test (JS regex `\d`). -/
def isDigitChar (c : Char) : Bool := 48 ≤ c.toNat && c.toNat ≤ 57

/-- Length of a placeholder `\x00TKSQ_\d+\x00` starting at `i`, if any. -/
def placeholderLenAt (t : Str) (i : Nat) : Option Nat :=
  if charAt? t i == some nulChar && sliceIs t (i + 1) (str ("TKSQ_")) false then
    let d := runLen isDigitChar t (i + 6)
    if 1 ≤ d && charAt? t (i + 6 + d) == some nulChar then some (d + 7) else none
  else none

/-- Spans of all placeholder occurrences in `t` (leftmost, non-overlapping). -/
def placeholderSpansAux (t : Str) : Nat → Nat → List (Nat × Nat)
  | 0, _ => []
  | Nat.succ fuel, i =>
    if i < t.length then
      match placeholderLenAt t i with
      | some len => (i, i + len) :: placeholderSpansAux t fuel (i + len)
      | none => placeholderSpansAux t fuel (i + 1)
    else []

/-- All placeholder spans of `t`. -/
def placeholderSpans (t : Str) : List (Nat × Nat) :=
  placeholderSpansAux t t.length 0

/-- StageUtils.isInPreservedRegion: does `pos` fall inside a placeholder? -/
def isInPreservedRegion (pos : Nat) (t : Str) : Bool :=
  (placeholderSpans t).any fun s => s.1 ≤ pos && pos < s.2

/-- JS `s === s.toUpperCase()` (ASCII model). -/
def isUpperEq (s : Str) : Bool := s == upperStr s

/-- StageUtils.matchCase / SemanticStage.matchCase: re-apply the matched
text's casing style to the replacement. -/
def matchCase (original replacement : Str) : Str :=
  if isUpperEq original && 1 < original.length then upperStr replacement
  else if (match original.head? with
           | some c => c == asciiUpperChar c
           | none => true) && 1 < original.length then
    match replacement with
    | [] => []
    | c :: cs => asciiUpperChar c :: cs
  else replacement

/-- Backtick character (0x60). -/
def backtick : Char := Char.ofNat 96

/-- Apostrophe character (0x27). -/
def apostrophe : Char := Char.ofNat 39

/-- Collect the matches of a pattern over `t`: leftmost, non-overlapping,
as produced by repeated `RegExp.exec` with the `g` flag.  The pattern is
given by its match-length function at each position. -/
def scanMatchesAux (ml : Nat → Option Nat) (tlen : Nat) : Nat → Nat → List (Nat × Nat)
  | 0, _ => []
  | Nat.succ fuel, i =>
    if i < tlen then
      match ml i with
      | some len => (i, i + len) :: scanMatchesAux ml tlen fuel (i + max len 1)
      | none => scanMatchesAux ml tlen fuel (i + 1)
    else []

/-- All matches of a pattern in `t`. -/
def scanMatches (ml : Nat → Option Nat) (t : Str) : List (Nat × Nat) :=
  scanMatchesAux ml t.length t.length 0

/-- First position `j ≥ start` where the literal `pat` occurs in `t`. -/
def findFrom (t pat : Str) : Nat → Nat → Option Nat
  | 0, _ => none
  | Nat.succ fuel, j =>
    if j < t.length then
      if sliceIs t j pat false then some j else findFrom t pat fuel (j + 1)
    else none

/-- Length of a match of `` /```[\s\S]*?```/ `` (fenced code block) at `i`. -/
def fencedLenAt (t : Str) (i : Nat) : Option Nat :=
  if sliceIs t i (str ("```")) false then
    match findFrom t (str ("```")) t.length (i + 3) with
    | some j => some (j + 3 - i)
    | none => none
  else none

/-- Length of a match of `` /`[^`]+`/ `` (inline code span) at `i`. -/
def inlineLenAt (t : Str) (i : Nat) : Option Nat :=
  if charAt? t i == some backtick then
    let r := runLen (fun c => !(c == backtick)) t (i + 1)
    if 1 ≤ r && charAt? t (i + 1 + r) == some backtick then some (r + 2) else none
  else none

/-- Length of a match of `/https?:\/\/\S+/` (bare URL) at `i`. -/
def urlLenAt (t : Str) (i : Nat) : Option Nat :=
  if sliceIs t i (str ("http")) false then
    let base :=
      if sliceIs t (i + 4) (str ("s://")) false then 8
      else if sliceIs t (i + 4) (str ("://")) false then 7
      else 0
    if base == 0 then none
    else
      let r := runLen (fun c => !(jsIsWsChar c)) t (i + base)
      if 1 ≤ r then some (base + r) else none
  else none

/-- Length of a match of `/"[^"]{80,}"/` (long quoted string) at `i`. -/
def quoteLenAt (t : Str) (i : Nat) : Option Nat :=
  if charAt? t i == some '"' then
    let r := runLen (fun c => !(c == '"')) t (i + 1)
    if 80 ≤ r && charAt? t (i + 1 + r) == some '"' then some (r + 2) else none
  else none

/-- PatternPreserver.BUILT_IN_PATTERNS, in source order. -/
def builtInPatterns : List (Str → Nat → Option Nat) :=
  [fencedLenAt, inlineLenAt, urlLenAt, quoteLenAt]

/-- All raw matches of the built-in and user patterns over `t`. -/
def collectMatches (t : Str) (userPats : List (Str → Nat → Option Nat)) :
    List (Nat × Nat) :=
  ((builtInPatterns ++ userPats).map (fun m => scanMatches (m t) t)).flatten

/-- Length of a raw match span. -/
def spanLen (m : Nat × Nat) : Nat := m.2 - m.1

/-- Source overlap test `m.start < k.end && m.end > k.start`. -/
def spansOverlap (m k : Nat × Nat) : Bool := m.1 < k.2 && k.1 < m.2

/-- PatternPreserver.removeOverlaps: stable-sort by length descending, then
greedily keep each match that overlaps no already-kept match. -/
def removeOverlapsList (ms : List (Nat × Nat)) : List (Nat × Nat) :=
  (List.insertionSort (fun a b => spanLen b ≤ spanLen a) ms).foldl
    (fun kept m => if kept.any (fun k => spansOverlap m k) then kept else kept ++ [m]) []

/-- PreservedRegion (the source's `end` field is called `stop` here). -/
structure PreservedRegion where
  start : Nat
  stop : Nat
  placeholder : Str
  originalText : Str
deriving DecidableEq

/-- The placeholder text for per-run index `i`. -/
def phStr (i : Nat) : Str :=
  nulChar :: ((str ("TKSQ_")) ++ (Nat.repr i).data ++ [nulChar])

/-- Result of PatternPreserver.extract. -/
structure ExtractResult where
  processed : Str
  regions : List PreservedRegion

/-- PatternPreserver.extract: collect matches of all patterns, drop
overlaps (longest first), then replace the kept spans back-to-front with
indexed placeholders. -/
def extract (t : Str) (userPats : List (Str → Nat → Option Nat)) : ExtractResult :=
  let deduped := removeOverlapsList (collectMatches t userPats)
  let ordered := List.insertionSort (fun a b => b.1 ≤ a.1) deduped
  let res := ordered.enum.foldl
    (fun (acc : Str × List PreservedRegion) (p : Nat × (Nat × Nat)) =>
      let m := p.2
      let ph := phStr p.1
      let region : PreservedRegion :=
        ⟨m.1, m.2, ph, sliceAt t m.1 (m.2 - m.1)⟩
      (acc.1.take m.1 ++ ph ++ acc.1.drop m.2, acc.2 ++ [region]))
    (t, [])
  ⟨res.1, res.2⟩

/-- ECMAScript GetSubstitution for a string-valued replacement with no
capture groups: `$$`, `$&`, `` $` `` and `$'` are special; anything else
after `$` stays literal. -/
def getSubstitution (repl matched before after : Str) : Str :=
  match repl with
  | [] => []
  | c :: rest =>
    if c == '$' then
      match rest with
      | [] => [c]
      | d :: rest2 =>
        if d == '$' then '$' :: getSubstitution rest2 matched before after
        else if d == '&' then matched ++ getSubstitution rest2 matched before after
        else if d == backtick then before ++ getSubstitution rest2 matched before after
        else if d == apostrophe then after ++ getSubstitution rest2 matched before after
        else c :: d :: getSubstitution rest2 matched before after
    else c :: getSubstitution rest matched before after

/-- JS `String.prototype.replace` with a string pattern and a string
replacement: first occurrence only, replacement run through
GetSubstitution. -/
def jsReplaceFirst (t pat repl : Str) : Str :=
  match findFrom t pat t.length 0 with
  | none => t
  | some i =>
    t.take i ++
      getSubstitution repl (sliceAt t i pat.length) (t.take i) (t.drop (i + pat.length)) ++
      t.drop (i + pat.length)

/-- PatternPreserver.restore: replace each region's placeholder by its
original text via `String.replace`. -/
def restore (t : Str) (regions : List PreservedRegion) : Str :=
  regions.foldl (fun acc r => jsReplaceFirst acc r.placeholder r.originalText) t

/-- JS `text.split("\n")`. -/
def splitLines : Str → List Str
  | [] => [[]]
  | c :: rest =>
    if c = '\n' then [] :: splitLines rest
    else
      match splitLines rest with
      | [] => [[c]]
      | l :: ls => (c :: l) :: ls

/-- JS `lines.join("\n")`. -/
def joinLines : List Str → Str
  | [] => []
  | [l] => l
  | l :: ls => l ++ '\n' :: joinLines ls

/-- JS `String.prototype.trim`. -/
def trimJs (t : Str) : Str :=
  ((t.dropWhile jsIsWsChar).reverse.dropWhile jsIsWsChar).reverse

/-- Matcher for `/\n{3,}/` with replacement `"\n\n"`. -/
def blankLinesStep (t : Str) (i : Nat) : Option MatchAct :=
  let r := runLen (fun c => c == '\n') t i
  if 3 ≤ r then some ⟨r, str ("\n\n"), []⟩ else none

/-- CleanupStage: collapse 3+ consecutive newlines into two. -/
def collapseBlankLines (t : Str) : Str := (runScan (blankLinesStep t) t).1

/-- Replace every maximal run of spaces by a single space
(JS `replace(/ {2,}/g, " ")`: runs of length 1 are already single). -/
def collapseSpaceRunsAux : Bool → Str → Str
  | _, [] => []
  | prev, c :: rest =>
    if c = ' ' then
      if prev then collapseSpaceRunsAux true rest
      else ' ' :: collapseSpaceRunsAux true rest
    else c :: collapseSpaceRunsAux false rest

/-- JS `replace(/ {2,}/g, " ")` over a whole string. -/
def collapseSpaceRuns (t : Str) : Str := collapseSpaceRunsAux false t

/-- One line of CleanupStage.normalizeWhitespace's space-collapsing map:
`line.match(/^(\s*)(.*)/)` splits off the leading whitespace, the `(.*)`
group stops at the first line terminator (JS `.`), anything beyond it is
dropped, and only the captured content has its space runs collapsed. -/
def normalizeLine (l : Str) : Str :=
  l.takeWhile jsIsWsChar ++
    collapseSpaceRuns ((l.dropWhile jsIsWsChar).takeWhile (fun c => !(isJsLineTerm c)))

/-- The indentation-preserving space-collapse pass of normalizeWhitespace. -/
def indentCollapsePass (t : Str) : Str :=
  joinLines ((splitLines t).map normalizeLine)

/-- JS `String.prototype.trimEnd` on one line. -/
def trimEndLine (l : Str) : Str := (l.reverse.dropWhile jsIsWsChar).reverse

/-- The per-line trailing-whitespace trim pass of normalizeWhitespace. -/
def trimTrailingPass (t : Str) : Str :=
  joinLines ((splitLines t).map trimEndLine)

/-- CleanupStage.normalizeWhitespace (the emitted `Change` records do not
affect the text and are omitted throughout the cleanup stage). -/
def normalizeWhitespace (t : Str) : Str :=
  trimTrailingPass (indentCollapsePass (collapseBlankLines t))

/-- Matcher for `` /\b<filler>\b[,]?\s*/gi `` with the preserved-region
guard of CleanupStage.removeFillers. -/
def fillerStep (t f : Str) (i : Nat) : Option MatchAct :=
  if sliceIs t i f true && wbAt t i && wbAt t (i + f.length) then
    let cLen := if charAt? t (i + f.length) == some ',' then 1 else 0
    let wLen := runLen jsIsWsChar t (i + f.length + cLen)
    let len := f.length + cLen + wLen
    if isInPreservedRegion i t then some ⟨len, sliceAt t i len, []⟩
    else some ⟨len, [], []⟩
  else none

/-- JS stable sort of strings by length descending. -/
def sortByLenDesc (l : List Str) : List Str :=
  List.insertionSort (fun a b => b.length ≤ a.length) l

/-- CleanupStage.removeFillers. -/
def removeFillers (fillers : List Str) (t : Str) : Str :=
  (sortByLenDesc fillers).foldl (fun cur f => (runScan (fillerStep cur f) cur).1) t

/-- One dictionary redundancy rule: the pattern is embedded as its
match-length function, the replacement is a literal. -/
def applyRedundancy (m : Str → Nat → Option Nat) (repl : Str) (t : Str) : Str :=
  (runScan (fun i =>
    match m t i with
    | some len =>
      if isInPreservedRegion i t then some ⟨len, sliceAt t i len, []⟩
      else some ⟨len, repl, []⟩
    | none => none) t).1

/-- CleanupStage.removeRedundancies. -/
def removeRedundancies (rs : List ((Str → Nat → Option Nat) × Str)) (t : Str) : Str :=
  rs.foldl (fun cur r => applyRedundancy r.1 r.2 cur) t

/-- Matcher for `/\.{2}(?!\.)/` with replacement `"."`. -/
def doublePeriodStep (t : Str) (i : Nat) : Option MatchAct :=
  if charAt? t i == some '.' && charAt? t (i + 1) == some '.' &&
      !(charAt? t (i + 2) == some '.') then
    some ⟨2, str ("."), []⟩
  else none

/-- Matcher for `/ +([.,;:!?])/` with replacement `"$1"`. -/
def spaceBeforePunctStep (t : Str) (i : Nat) : Option MatchAct :=
  if charAt? t i == some ' ' then
    let r := runLen (fun c => c == ' ') t i
    match charAt? t (i + r) with
    | some p =>
      if p == '.' || p == ',' || p == ';' || p == ':' || p == '!' || p == '?' then
        some ⟨r + 1, [p], []⟩
      else none
    | none => none
  else none

/-- Matcher for `/,\s*,/` with replacement `","`. -/
def doubleCommaStep (t : Str) (i : Nat) : Option MatchAct :=
  if charAt? t i == some ',' then
    let r := runLen jsIsWsChar t (i + 1)
    if charAt? t (i + 1 + r) == some ',' then some ⟨r + 2, str (","), []⟩ else none
  else none

/-- ASCII lowercase letter test (JS regex `[a-z]`). -/
def isLowerAZ (c : Char) : Bool := 97 ≤ c.toNat && c.toNat ≤ 122

/-- ASCII uppercase letter test (JS regex `[A-Z]`). -/
def isUpperAZ (c : Char) : Bool := 65 ≤ c.toNat && c.toNat ≤ 90

/-- Matcher for `/\.\s+([a-z])/` replaced by `". " + letter.toUpperCase()`. -/
def capAfterPeriodStep (t : Str) (i : Nat) : Option MatchAct :=
  if charAt? t i == some '.' then
    let r := runLen jsIsWsChar t (i + 1)
    if 1 ≤ r then
      match charAt? t (i + 1 + r) with
      | some c =>
        if isLowerAZ c then some ⟨r + 2, '.' :: ' ' :: [asciiUpperChar c], []⟩ else none
      | none => none
    else none
  else none

/-- Matcher for `/^\s*[,]\s*/gm` (anchored at text start or after a
newline) with empty replacement. -/
def leadingCommaStep (t : Str) (i : Nat) : Option MatchAct :=
  if i = 0 || charAt? t (i - 1) == some '\n' then
    let r1 := runLen jsIsWsChar t i
    if charAt? t (i + r1) == some ',' then
      let r2 := runLen jsIsWsChar t (i + r1 + 1)
      some ⟨r1 + 1 + r2, [], []⟩
    else none
  else none

/-- CleanupStage.cleanupPunctuation: the five punctuation passes in source
order. -/
def cleanupPunctuation (t : Str) : Str :=
  let t1 := (runScan (doublePeriodStep t) t).1
  let t2 := (runScan (spaceBeforePunctStep t1) t1).1
  let t3 := (runScan (doubleCommaStep t2) t2).1
  let t4 := (runScan (capAfterPeriodStep t3) t3).1
  (runScan (leadingCommaStep t4) t4).1

/-- CleanupStage.finalWhitespacePass: collapse space runs everywhere
(leading indentation included), collapse blank lines, trim. -/
def finalWhitespacePass (t : Str) : Str :=
  trimJs (collapseBlankLines (collapseSpaceRuns t))

/-- SubstitutionDictionary: redundancy patterns are embedded as
match-length functions (their regexes are data supplied per language). -/
structure SubstDict where
  fillers : List Str
  substitutions : List (Str × Str)
  redundancies : List ((Str → Nat → Option Nat) × Str)
  abbreviations : List (Str × Str)

/-- CleanupStage.process: the five internal steps in source order. -/
def cleanupProcessText (dict : SubstDict) (t : Str) : Str :=
  finalWhitespacePass (cleanupPunctuation
    (removeRedundancies dict.redundancies
      (removeFillers dict.fillers (normalizeWhitespace t))))

/-- JS stable sort of dictionary entries by key length descending. -/
def sortEntriesByKeyLenDesc (l : List (Str × Str)) : List (Str × Str) :=
  List.insertionSort (fun a b => b.1.length ≤ a.1.length) l

/-- Matcher for one substitution entry `` /\b<phrase>\b/gi `` with the
preserved-region guard and case adjustment of
SemanticStage.applySubstitutions. -/
def subStep (t w repl : Str) (i : Nat) : Option MatchAct :=
  if sliceIs t i w true && wbAt t i && wbAt t (i + w.length) then
    let matched := sliceAt t i w.length
    if isInPreservedRegion i t then some ⟨w.length, matched, []⟩
    else
      let adj := matchCase matched repl
      some ⟨w.length, adj, [⟨matched, adj, i, "semantic:substitution"⟩]⟩
  else none

/-- SemanticStage.applySubstitutions. -/
def applySubstitutions (subs : List (Str × Str)) (t : Str) : Str :=
  (sortEntriesByKeyLenDesc subs).foldl
    (fun cur e => (runScan (subStep cur e.1 e.2) cur).1) t

/-- SemanticStage.isPartOfIdentifier. -/
def isPartOfIdentifier (t : Str) (offset len : Nat) : Bool :=
  let before := if offset = 0 then none else charAt? t (offset - 1)
  let after := if offset + len < t.length then charAt? t (offset + len) else none
  (before == some '_' || before == some '.') ||
  (after == some '_' || after == some '(') ||
  (match before, charAt? t offset with
   | some b, some c => isLowerAZ b && isUpperAZ c
   | _, _ => false)

/-- Matcher for one abbreviation entry `` /\b<word>\b/gi `` with the
preserved-region and identifier guards of
SemanticStage.applyAbbreviations. -/
def abbrStep (t w abbr : Str) (i : Nat) : Option MatchAct :=
  if sliceIs t i w true && wbAt t i && wbAt t (i + w.length) then
    let matched := sliceAt t i w.length
    if isInPreservedRegion i t then some ⟨w.length, matched, []⟩
    else if isPartOfIdentifier t i w.length then some ⟨w.length, matched, []⟩
    else
      let adj := matchCase matched abbr
      some ⟨w.length, adj, [⟨matched, adj, i, "semantic:abbreviation"⟩]⟩
  else none

/-- One abbreviation entry's full replacement pass over a text. -/
def applyAbbrWord (w abbr t : Str) : Str × List Change :=
  runScan (abbrStep t w abbr) t

/-- SemanticStage.applyAbbreviations. -/
def applyAbbreviations (abbrs : List (Str × Str)) (t : Str) : Str :=
  if abbrs.length = 0 then t
  else (sortEntriesByKeyLenDesc abbrs).foldl
    (fun cur e => (applyAbbrWord e.1 e.2 cur).1) t

/-- The compression level preset. -/
inductive CompressionLevel where
  | light
  | medium
  | aggressive
deriving DecidableEq

/-- SemanticStage.process: substitutions always, abbreviations only when
the level is not `light`. -/
def semanticProcessText (level : CompressionLevel) (dict : SubstDict) (t : Str) : Str :=
  let t1 := applySubstitutions dict.substitutions t
  if level ≠ CompressionLevel.light then applyAbbreviations dict.abbreviations t1 else t1

/-- Replace every maximal whitespace run by one space
(JS `replace(/\s+/g, " ")`). -/
def collapseWsRunsAux : Bool → Str → Str
  | _, [] => []
  | prev, c :: rest =>
    if jsIsWsChar c then
      if prev then collapseWsRunsAux true rest
      else ' ' :: collapseWsRunsAux true rest
    else c :: collapseWsRunsAux false rest

/-- JS `replace(/\s+/g, " ")`. -/
def collapseWsRuns (t : Str) : Str := collapseWsRunsAux false t

/-- StructuralStage.deduplicateSentences: drop a line when its trimmed,
lower-cased, whitespace-normalized content was already seen (empty lines
and lines whose `text.indexOf(line)` lands in a placeholder are kept). -/
def deduplicateSentences (t : Str) : Str :=
  let res := (splitLines t).foldl
    (fun (st : List Str × List Str) line =>
      let trimmed := trimJs line
      if trimmed = [] then (st.1, st.2 ++ [line])
      else if isInPreservedRegion ((findFrom t line t.length 0).getD 0) t then
        (st.1, st.2 ++ [line])
      else
        let normalized := collapseWsRuns (lowerStr trimmed)
        if st.1.contains normalized then st
        else (st.1 ++ [normalized], st.2 ++ [line]))
    ([], [])
  joinLines res.2

/-- End positions after each successive `\s+\1` repetition (the
backreference matches case-insensitively under the `i` flag). -/
def repEndsAux (t word : Str) : Nat → Nat → List Nat
  | 0, _ => []
  | Nat.succ fuel, pos =>
    let ws := runLen jsIsWsChar t pos
    if 1 ≤ ws && sliceIs t (pos + ws) word true then
      let e := pos + ws + word.length
      e :: repEndsAux t word fuel e
    else []

/-- Largest repetition count whose end position satisfies the trailing
`\b` (the regex engine backtracks over `(?:\s+\1)+` until it does). -/
def lastEndWithWb (t : Str) (ends : List Nat) : Option Nat :=
  (ends.filter (fun e => wbAt t e)).getLast?

/-- Matcher for `/\b(\w{3,})((?:\s+\1)+)\b/gi`
(StructuralStage.collapseRepeatedPhrases).  Group 1 must take the whole
word-character run: any shorter prefix leaves a word character where
`\s+` is required, so no backtracking over the group length is possible. -/
def collapseRepeatStep (t : Str) (i : Nat) : Option MatchAct :=
  if wbAt t i then
    let maxRun := runLen jsIsWordChar t i
    if 3 ≤ maxRun then
      let word := sliceAt t i maxRun
      match lastEndWithWb t (repEndsAux t word t.length (i + maxRun)) with
      | some e =>
        let matched := sliceAt t i (e - i)
        if isInPreservedRegion i t then some ⟨e - i, matched, []⟩
        else some ⟨e - i, word, [⟨matched, word, i, "structural:collapse-repeat"⟩]⟩
      | none => none
    else none
  else none

/-- JS `line.split(/,\s*/)` starting at position `i`. -/
def splitCommaWsAux (t : Str) : Nat → Nat → List Str
  | 0, i => [t.drop i]
  | Nat.succ fuel, i =>
    let seg := (t.drop i).takeWhile (fun c => !(c == ','))
    let j := i + seg.length
    if j < t.length then
      let ws := runLen jsIsWsChar t (j + 1)
      seg :: splitCommaWsAux t fuel (j + 1 + ws)
    else [t.drop i]

/-- JS `line.split(/,\s*/)`. -/
def splitCommaWs (l : Str) : List Str := splitCommaWsAux l (l.length + 1) 0

/-- StructuralStage.condenseLists on one line. -/
def condenseListsLine (line : Str) : Str :=
  let commaItems := splitCommaWs line
  if 5 ≤ commaItems.length then
    List.intercalate (str ("; "))
      ((commaItems.map trimJs).filter (fun s => !s.isEmpty))
  else line

/-- StructuralStage.condenseLists. -/
def condenseLists (t : Str) : Str :=
  joinLines ((splitLines t).map condenseListsLine)

/-- StructuralStage.process. -/
def structuralProcessText (level : CompressionLevel) (t : Str) : Str :=
  let t1 := deduplicateSentences t
  let t2 := (runScan (collapseRepeatStep t1) t1).1
  if level = CompressionLevel.aggressive then condenseLists t2 else t2

/-- ShorthandStage CONTRACTIONS table: pattern words, replacement, and
whether the regex carries the `i` flag (the four `I ...` entries are
case-sensitive). -/
def contractionsList : List (Str × Str × Bool) :=
  [(str ("do not"), str ("don't"), true),
   (str ("cannot"), str ("can't"), true),
   (str ("will not"), str ("won't"), true),
   (str ("should not"), str ("shouldn't"), true),
   (str ("would not"), str ("wouldn't"), true),
   (str ("could not"), str ("couldn't"), true),
   (str ("does not"), str ("doesn't"), true),
   (str ("did not"), str ("didn't"), true),
   (str ("is not"), str ("isn't"), true),
   (str ("are not"), str ("aren't"), true),
   (str ("was not"), str ("wasn't"), true),
   (str ("were not"), str ("weren't"), true),
   (str ("has not"), str ("hasn't"), true),
   (str ("have not"), str ("haven't"), true),
   (str ("had not"), str ("hadn't"), true),
   (str ("will have"), str ("will've"), true),
   (str ("would have"), str ("would've"), true),
   (str ("could have"), str ("could've"), true),
   (str ("should have"), str ("should've"), true),
   (str ("it is"), str ("it's"), true),
   (str ("that is"), str ("that's"), true),
   (str ("there is"), str ("there's"), true),
   (str ("what is"), str ("what's"), true),
   (str ("who is"), str ("who's"), true),
   (str ("let us"), str ("let's"), true),
   (str ("I am"), str ("I'm"), false),
   (str ("I have"), str ("I've"), false),
   (str ("I will"), str ("I'll"), false),
   (str ("I would"), str ("I'd"), false),
   (str ("you are"), str ("you're"), true),
   (str ("you have"), str ("you've"), true),
   (str ("you will"), str ("you'll"), true),
   (str ("you would"), str ("you'd"), true),
   (str ("we are"), str ("we're"), true),
   (str ("we have"), str ("we've"), true),
   (str ("we will"), str ("we'll"), true),
   (str ("they are"), str ("they're"), true),
   (str ("they have"), str ("they've"), true),
   (str ("they will"), str ("they'll"), true)]

/-- Matcher for one contraction `` /\b<pat>\b/ `` with the first-letter
case rule of ShorthandStage.applyContractions. -/
def contractionStep (t pat repl : Str) (ci : Bool) (i : Nat) : Option MatchAct :=
  if sliceIs t i pat ci && wbAt t i && wbAt t (i + pat.length) then
    let matched := sliceAt t i pat.length
    if isInPreservedRegion i t then some ⟨pat.length, matched, []⟩
    else
      let contracted :=
        match matched.head? with
        | some c =>
          if c == asciiUpperChar c then
            match repl with
            | [] => []
            | r :: rs => asciiUpperChar r :: rs
          else repl
        | none => repl
      some ⟨pat.length, contracted, [⟨matched, contracted, i, "shorthand:contraction"⟩]⟩
  else none

/-- ShorthandStage.applyContractions. -/
def applyContractions (t : Str) : Str :=
  contractionsList.foldl
    (fun cur p => (runScan (contractionStep cur p.1 p.2.1 p.2.2) cur).1) t

/-- ShorthandStage COPULA_PATTERNS table. -/
def copulasList : List (Str × Str) :=
  [(str ("it is important to note that"), str ("notably")),
   (str ("it is worth noting that"), str ("notably")),
   (str ("it is necessary to"), str ("must")),
   (str ("it is possible to"), str ("can")),
   (str ("it is recommended to"), str ("should")),
   (str ("there are many"), str ("many")),
   (str ("there are several"), str ("several")),
   (str ("there are some"), str ("some")),
   (str ("there is a need to"), str ("need to"))]

/-- Matcher for one copula pattern `` /\b<pat>\b/gi `` (literal
replacement, no case adjustment). -/
def copulaStep (t pat repl : Str) (i : Nat) : Option MatchAct :=
  if sliceIs t i pat true && wbAt t i && wbAt t (i + pat.length) then
    let matched := sliceAt t i pat.length
    if isInPreservedRegion i t then some ⟨pat.length, matched, []⟩
    else some ⟨pat.length, repl, [⟨matched, repl, i, "shorthand:copula"⟩]⟩
  else none

/-- ShorthandStage.simplifyCopulas. -/
def simplifyCopulas (t : Str) : Str :=
  copulasList.foldl (fun cur p => (runScan (copulaStep cur p.1 p.2) cur).1) t

/-- Match of `/\b(the|a|an)\s+/gi` at `i`: alternatives tried in source
order, each followed by a mandatory whitespace run.  Returns the article
length and the whitespace-run length. -/
def articleMatchAt (t : Str) (i : Nat) : Option (Nat × Nat) :=
  if wbAt t i then
    if sliceIs t i (str ("the")) true && decide (1 ≤ runLen jsIsWsChar t (i + 3)) then
      some (3, runLen jsIsWsChar t (i + 3))
    else if sliceIs t i (str ("a")) true && decide (1 ≤ runLen jsIsWsChar t (i + 1)) then
      some (1, runLen jsIsWsChar t (i + 1))
    else if sliceIs t i (str ("an")) true && decide (1 ≤ runLen jsIsWsChar t (i + 2)) then
      some (2, runLen jsIsWsChar t (i + 2))
    else none
  else none

/-- Matcher for ShorthandStage.removeArticles: keeps a matched article
when its offset is inside a placeholder, at position 0, or directly
preceded by a period or newline; otherwise removes it. -/
def articleStep (t : Str) (i : Nat) : Option MatchAct :=
  match articleMatchAt t i with
  | none => none
  | some (alen, w) =>
    let len := alen + w
    let matched := sliceAt t i len
    if isInPreservedRegion i t then some ⟨len, matched, []⟩
    else if i = 0 || charAt? t (i - 1) == some '.' || charAt? t (i - 1) == some '\n' then
      some ⟨len, matched, []⟩
    else some ⟨len, [], [⟨trimJs matched, [], i, "shorthand:article"⟩]⟩

/-- ShorthandStage.removeArticles (text and emitted changes). -/
def removeArticles (t : Str) : Str × List Change :=
  runScan (articleStep t) t

/-- ShorthandStage.process: at `aggressive`, copulas then article removal,
then contractions at every level. -/
def shorthandProcessText (level : CompressionLevel) (t : Str) : Str :=
  let t1 :=
    if level = CompressionLevel.aggressive then (removeArticles (simplifyCopulas t)).1
    else t
  applyContractions t1

/-- Pipeline LEVEL_STAGES. -/
def LEVEL_STAGES : CompressionLevel → List String
  | CompressionLevel.light => ["cleanup"]
  | CompressionLevel.medium => ["cleanup", "semantic"]
  | CompressionLevel.aggressive => ["cleanup", "semantic", "structural", "shorthand"]

/-- Pipeline.stagesForLevel (returns a copy of the LEVEL_STAGES entry). -/
def stagesForLevel (level : CompressionLevel) : List String :=
  LEVEL_STAGES level

/-- Dispatch one resolved stage id to its `process` function (the four
ids of the stage registry; LEVEL_STAGES only ever names these). -/
def stageProcessText (id : String) (level : CompressionLevel) (dict : SubstDict)
    (t : Str) : Str :=
  if id = "cleanup" then cleanupProcessText dict t
  else if id = "semantic" then semanticProcessText level dict t
  else if id = "structural" then structuralProcessText level t
  else if id = "shorthand" then shorthandProcessText level t
  else t

/-- Pipeline.compress, text part: extract preserved regions, run the
level's stages in order, restore the regions. -/
def compressText (level : CompressionLevel) (dict : SubstDict)
    (userPats : List (Str → Nat → Option Nat)) (t : Str) : Str :=
  let e := extract t userPats
  let final := (LEVEL_STAGES level).foldl
    (fun cur id => stageProcessText id level dict cur) e.processed
  restore final e.regions

/-- ApproximateCounter.count: `0` on empty text, else
`max(1, ceil(length / 4))`. -/
def approxCount (t : Str) : Nat :=
  if t.length = 0 then 0 else max 1 ((t.length + 3) / 4)

/-- JS `Math.round`: floor of `x + 1/2`. -/
def jsRound (q : ℚ) : ℤ := Int.floor (q + 1 / 2)

/-- The reported reduction percent:
`Math.round((orig - comp) / orig * 10000) / 100`, `0` when `orig = 0`. -/
def reductionPercent (orig comp : Nat) : ℚ :=
  if 0 < orig then
    ((jsRound (((orig : ℚ) - (comp : ℚ)) / (orig : ℚ) * 10000) : ℚ)) / 100
  else 0

/-- The overall `stats.reductionPercent` reported by Pipeline.compress
with the approximate tokenizer. -/
def compressReductionPercent (level : CompressionLevel) (dict : SubstDict)
    (userPats : List (Str → Nat → Option Nat)) (t : Str) : ℚ :=
  reductionPercent (approxCount t) (approxCount (compressText level dict userPats t))

/-- JS `phrase.split(/\s+/)`: segments between maximal whitespace runs; a
leading or trailing run produces an empty segment, and `""` splits to
`[""]`. -/
def jsSplitWsAux (t : Str) : Nat → Nat → List Str
  | 0, i => [t.drop i]
  | Nat.succ fuel, i =>
    let seg := (t.drop i).takeWhile (fun c => !(jsIsWsChar c))
    let j := i + seg.length
    if j < t.length then
      let ws := runLen jsIsWsChar t j
      seg :: jsSplitWsAux t fuel (j + ws)
    else [t.drop i]

/-- JS `phrase.split(/\s+/)`. -/
def jsSplitWs (p : Str) : List Str := jsSplitWsAux p (p.length + 1) 0

/-- `words.map(w => w[0].toUpperCase()).join("")`: `none` models the
TypeError thrown when some word is empty (`w[0]` is `undefined`). -/
def acronymOf : List Str → Option Str
  | [] => some []
  | w :: ws =>
    match w with
    | [] => none
    | c :: _ => (acronymOf ws).map (fun acc => asciiUpperChar c :: acc)

/-- Does `suf` occur as a suffix of `t`? -/
def endsWithStr (t suf : Str) : Bool :=
  suf.length ≤ t.length && t.drop (t.length - suf.length) == suf

/-- PhraseTracker.suggestReplacement's fixed long-word table; each entry
is tested as `/<word>$/i`. -/
def shorteningsTable : List (Str × Str) :=
  [(str ("configuration"), str ("config")),
   (str ("implementation"), str ("impl")),
   (str ("application"), str ("app")),
   (str ("documentation"), str ("docs")),
   (str ("information"), str ("info")),
   (str ("development"), str ("dev")),
   (str ("environment"), str ("env")),
   (str ("management"), str ("mgmt")),
   (str ("performance"), str ("perf")),
   (str ("repository"), str ("repo"))]

/-- First table entry whose pattern `/<word>$/i` matches the phrase. -/
def shorteningsLookup (p : Str) : Option Str :=
  (shorteningsTable.find? (fun e => endsWithStr (lowerStr p) e.1)).map (fun e => e.2)

/-- PhraseTracker.suggestReplacement.  `Except.error ()` models the
TypeError thrown while building the acronym when a split word is empty;
`Except.ok x` models a normal return of `x`. -/
def suggestReplacement (p : Str) : Except Unit (Option Str) :=
  let words := jsSplitWs p
  let singleWordCheck : Except Unit (Option Str) :=
    if words.length = 1 ∧ 10 ≤ p.length then
      match shorteningsLookup p with
      | some s => Except.ok (some s)
      | none => Except.ok none
    else Except.ok none
  if 2 ≤ words.length ∧ words.length ≤ 5 then
    match acronymOf words with
    | none => Except.error ()
    | some acr =>
      if 2 * acr.length < p.length then Except.ok (some acr)
      else singleWordCheck
  else singleWordCheck

/-- Modelled from the spec sentence of C9 (the claim's own wording, for
comparison with the source translation `suggestReplacement`): 2–5 words
give the upper-cased first-letter acronym exactly when it is shorter than
half the phrase's character length; a single word of at least 10
characters gives the matching fixed-table short form; every other case
gives null. -/
def suggestReplacementSpec (p : Str) : Option Str :=
  let words := jsSplitWs p
  if 2 ≤ words.length ∧ words.length ≤ 5 then
    let acr := words.map (fun w => asciiUpperChar (w.headD ' '))
    if 2 * acr.length < p.length then some acr else none
  else if words.length = 1 ∧ 10 ≤ p.length then shorteningsLookup p
  else none

/-- CandidatePattern with `firstSeen`/`lastSeen` timestamps modelled as
naturals (ISO date strings compared by `localeCompare` are ordered like
their creation times). -/
structure CandidatePattern where
  phrase : Str
  suggestedReplacement : Option Str
  count : Nat
  firstSeen : Nat
  lastSeen : Nat
deriving DecidableEq

/-- The `data.candidates` object: an insertion-ordered association list
with unique lower-cased keys (JS objects preserve string-key insertion
order; in-place updates keep the position). -/
abbrev CandMap := List (Str × CandidatePattern)

/-- Association-list lookup by key (JS `obj[key]` on a string-keyed
object). -/
def lookupKey {α : Type} (k : Str) : List (Str × α) → Option α
  | [] => none
  | e :: rest => if e.1 = k then some e.2 else lookupKey k rest

/-- JS truthiness of the incoming `suggestedReplacement` argument
(`null` and `""` are falsy). -/
def suggTruthy : Option Str → Bool
  | none => false
  | some s => !s.isEmpty

/-- JS falsiness of the stored `suggestedReplacement` field. -/
def suggFalsy : Option Str → Bool
  | none => true
  | some s => s.isEmpty

/-- The insert/increment part of PhraseStore.addCandidate: increment
count and refresh `lastSeen` for an existing key (filling in a first
suggestion), else create a fresh candidate with count 1. -/
def insertCandidate (cs : CandMap) (phrase : Str) (sugg : Option Str)
    (now : Nat) : CandMap :=
  let key := lowerStr phrase
  if (lookupKey key cs).isSome then
    cs.map fun e =>
      if e.1 = key then
        (e.1,
          { e.2 with
            count := e.2.count + 1
            lastSeen := now
            suggestedReplacement :=
              if suggTruthy sugg && suggFalsy e.2.suggestedReplacement then sugg
              else e.2.suggestedReplacement })
      else e
  else cs ++ [(key, ⟨phrase, sugg, 1, now, now⟩)]

/-- The eviction comparator `(a, b) => a.count - b.count ||
a.lastSeen.localeCompare(b.lastSeen)` as a total preorder: `a` sorts
before (or ties with) `b`. -/
def rankLe (a b : Str × CandidatePattern) : Prop :=
  a.2.count < b.2.count ∨ (a.2.count = b.2.count ∧ a.2.lastSeen ≤ b.2.lastSeen)

instance : DecidableRel rankLe := fun a b => by
  unfold rankLe
  infer_instance

instance : IsTotal (Str × CandidatePattern) rankLe :=
  ⟨by
    intro a b
    unfold rankLe
    omega⟩

instance : IsTrans (Str × CandidatePattern) rankLe :=
  ⟨by
    intro a b c
    unfold rankLe
    omega⟩

/-- PhraseStore.evictIfNeeded: when over the cap, stable-sort ascending
by (count, lastSeen) and delete the first `length - maxCandidates` keys. -/
def evictIfNeeded (cs : CandMap) (maxCandidates : Nat) : CandMap :=
  if cs.length ≤ maxCandidates then cs
  else
    cs.filter fun e =>
      decide (e.1 ∉
        (((List.insertionSort rankLe cs).take (cs.length - maxCandidates)).map Prod.fst))

/-- PhraseStore.addCandidate (state transition on the candidates map). -/
def addCandidate (cs : CandMap) (phrase : Str) (sugg : Option Str)
    (maxCandidates : Nat) (now : Nat) : CandMap :=
  evictIfNeeded (insertCandidate cs phrase sugg now) maxCandidates

/-- The getCandidates comparator `(a, b) => b.count - a.count` as a total
preorder. -/
def countDescLe (a b : Str × CandidatePattern) : Prop :=
  b.2.count ≤ a.2.count

instance : DecidableRel countDescLe := fun a b => by
  unfold countDescLe
  infer_instance

/-- PhraseStore.getCandidates: all candidates sorted by count
descending (stable). -/
def getCandidates (cs : CandMap) : List CandidatePattern :=
  (List.insertionSort countDescLe cs).map Prod.snd

/-- The learned-data aggregate (candidates and promoted maps). -/
structure LearnedData where
  candidates : CandMap
  promoted : List (Str × Str)

/-- JS `obj[key] = val` on a string-keyed object: update in place when
the key exists, else append. -/
def setAssoc (m : List (Str × Str)) (key val : Str) : List (Str × Str) :=
  if (lookupKey key m).isSome then
    m.map (fun e => if e.1 = key then (e.1, val) else e)
  else m ++ [(key, val)]

/-- JS `delete obj[key]` on the candidates object. -/
def eraseKey (cs : CandMap) (key : Str) : CandMap :=
  cs.filter fun e => !(e.1 == key)

/-- PhraseStore.promote: unconditionally set `promoted[key]`, delete the
candidate entry (present or not), return `true`. -/
def promote (d : LearnedData) (phrase repl : Str) : LearnedData × Bool :=
  let key := lowerStr phrase
  (⟨eraseKey d.candidates key, setAssoc d.promoted key repl⟩, true)

/-- PhraseStore.reject: return `false` when no candidate has the key,
else delete it and return `true`. -/
def reject (d : LearnedData) (phrase : Str) : LearnedData × Bool :=
  let key := lowerStr phrase
  if (lookupKey key d.candidates).isSome then
    (⟨eraseKey d.candidates key, d.promoted⟩, true)
  else (d, false)

/-- The empty substitution dictionary (no fillers, substitutions,
redundancies or abbreviations): a legal `config.dictionary`. -/
def emptyDict : SubstDict := ⟨[], [], [], []⟩

/-- A dictionary with one substitution whose replacement is longer than
the phrase it replaces. -/
def expandingDict : SubstDict :=
  ⟨[], [(str ("aaaa"), str ("bbbbbbbbbbbbbbbbbbbb"))], [], []⟩

/-- A dictionary with the single abbreviation `function → fn`. -/
def fnDict : SubstDict := ⟨[], [], [], [(str ("function"), str ("fn"))]⟩

/-- Every article match in `t` is guarded: inside a placeholder, or at a
sentence start (offset 0, or direct predecessor a period or newline). -/
def articleAllGuardedB (t : Str) : Bool :=
  (List.range t.length).all fun i =>
    match articleMatchAt t i with
    | none => true
    | some _ =>
      isInPreservedRegion i t ||
        (decide (i = 0) || charAt? t (i - 1) == some '.' ||
          charAt? t (i - 1) == some '\n')

/-- The spec's eviction scenario, step by step: `maxCandidates = 3`, five
distinct phrases arriving with counts 2, 3, 1, 1, 1 at strictly
increasing times. -/
def evictDemo2 : CandMap :=
  addCandidate (addCandidate [] (str ("phrase a")) (some (str ("PA"))) 3 1)
    (str ("phrase a")) none 3 2

/-- Scenario state after the three additions of the second phrase. -/
def evictDemo5 : CandMap :=
  addCandidate (addCandidate (addCandidate evictDemo2
    (str ("phrase b")) (some (str ("PB"))) 3 3)
    (str ("phrase b")) none 3 4)
    (str ("phrase b")) none 3 5

/-- Scenario state after the fourth distinct phrase (first eviction). -/
def evictDemo7 : CandMap :=
  addCandidate (addCandidate evictDemo5 (str ("phrase c")) (some (str ("PC"))) 3 6)
    (str ("phrase d")) (some (str ("PD"))) 3 7

/-- Scenario state after the fifth distinct phrase's insertion. -/
def evictDemo8 : CandMap :=
  addCandidate evictDemo7 (str ("phrase e")) (some (str ("PE"))) 3 8

set_option maxRecDepth 40000

/-- Every change produced by a scan comes from a position where the step
function matched and emitted it. -/
theorem scanAux_changes (step : Nat → Option MatchAct) (t : Str) :
    ∀ fuel i ch, ch ∈ (scanAux step t fuel i).2 →
      ∃ j a, step j = some a ∧ ch ∈ a.changes := by
  intro fuel
  induction fuel with
  | zero => intro i ch h; simp [scanAux] at h
  | succ n ih =>
    intro i ch h
    simp only [scanAux] at h
    split at h
    · cases hs : step i with
      | none =>
        rw [hs] at h
        simp only [List.mem_append] at h
        exact ih _ _ h
      | some a =>
        rw [hs] at h
        simp only [List.mem_append] at h
        rcases h with h | h
        · exact ⟨i, a, hs, h⟩
        · exact ih _ _ h
    · simp at h

/-- Change provenance for a full replacement run. -/
theorem runScan_changes (step : Nat → Option MatchAct) (t : Str) (ch : Change)
    (h : ch ∈ (runScan step t).2) : ∃ j a, step j = some a ∧ ch ∈ a.changes :=
  scanAux_changes step t t.length 0 ch h

/-- Splicing a slice back before the following suffix restores the text. -/
theorem take_append_drop_of_drop (t : Str) (i len : Nat) :
    sliceAt t i len ++ t.drop (i + len) = t.drop i := by
  have : t.drop (i + len) = (t.drop i).drop len := by
    rw [List.drop_drop, Nat.add_comm]
  rw [this, sliceAt, List.take_append_drop]

/-- A scan whose step always emits the matched slice verbatim copies its
input. -/
theorem scanAux_id (step : Nat → Option MatchAct) (t : Str)
    (hstep : ∀ j a, step j = some a → a.out = sliceAt t j a.len ∧ 1 ≤ a.len) :
    ∀ fuel i, (scanAux step t fuel i).1 = t.drop i := by
  intro fuel
  induction fuel with
  | zero => intro i; simp [scanAux]
  | succ n ih =>
    intro i
    simp only [scanAux]
    split
    · cases hs : step i with
      | none =>
        simpa [ih (i + 1)] using take_append_drop_of_drop t i 1
      | some a =>
        obtain ⟨hout, hlen⟩ := hstep i a hs
        have hmax : max a.len 1 = a.len := Nat.max_eq_left hlen
        simp only [hmax, ih (i + a.len), hout]
        exact take_append_drop_of_drop t i a.len
    · rename_i hge
      rw [List.drop_eq_nil_of_le (by omega)]

/-- A literal match needs at least one character of text. -/
theorem sliceIs_lt (t : Str) (i : Nat) (pat : Str) (ci : Bool)
    (h : sliceIs t i pat ci = true) (hp : pat ≠ []) : i < t.length := by
  by_contra hge
  have hd : t.drop i = [] := List.drop_eq_nil_of_le (by omega)
  simp [sliceIs, sliceAt, hd] at h
  exact hp (List.length_eq_zero.mp h.1.symm)

/-- No article match starts at or past the end of the text. -/
theorem articleMatchAt_none_of_ge (t : Str) (i : Nat) (h : t.length ≤ i) :
    articleMatchAt t i = none := by
  unfold articleMatchAt
  split
  · split_ifs with h1 h2 h3
    · simp only [Bool.and_eq_true] at h1
      exact absurd (sliceIs_lt t i _ _ h1.1 (by decide)) (by omega)
    · simp only [Bool.and_eq_true] at h2
      exact absurd (sliceIs_lt t i _ _ h2.1 (by decide)) (by omega)
    · simp only [Bool.and_eq_true] at h3
      exact absurd (sliceIs_lt t i _ _ h3.1 (by decide)) (by omega)
    · rfl
  · rfl

/-- Article matches consume a nonempty article and a nonempty
whitespace run. -/
theorem articleMatchAt_pos (t : Str) (i : Nat) (alen w : Nat)
    (h : articleMatchAt t i = some (alen, w)) : 1 ≤ alen ∧ 1 ≤ w := by
  unfold articleMatchAt at h
  split at h
  · split_ifs at h with h1 h2 h3
    · simp only [Bool.and_eq_true, decide_eq_true_eq] at h1
      cases h
      omega
    · simp only [Bool.and_eq_true, decide_eq_true_eq] at h2
      cases h
      omega
    · simp only [Bool.and_eq_true, decide_eq_true_eq] at h3
      cases h
      omega
  · cases h

/-- `splitLines` always yields at least one line. -/
theorem splitLines_ne_nil (t : Str) : splitLines t ≠ [] := by
  induction t with
  | nil => simp [splitLines]
  | cons c rest ih =>
    simp only [splitLines]
    split
    · simp
    · cases h : splitLines rest with
      | nil => simp
      | cons l ls => simp

/-- Lines produced by `splitLines` contain no newline. -/
theorem nl_not_mem_splitLines (t : Str) : ∀ l ∈ splitLines t, '\n' ∉ l := by
  induction t with
  | nil => intro l hl; simp [splitLines] at hl; simp [hl]
  | cons c rest ih =>
    intro l hl
    simp only [splitLines] at hl
    split at hl
    · rcases List.mem_cons.mp hl with h | h
      · simp [h]
      · exact ih l h
    · rename_i hc
      cases hsp : splitLines rest with
      | nil => exact absurd hsp (splitLines_ne_nil rest)
      | cons l0 ls =>
        rw [hsp] at hl
        rcases List.mem_cons.mp hl with h | h
        · subst h
          intro hmem
          rcases List.mem_cons.mp hmem with h | h
          · exact hc h.symm
          · exact ih l0 (by rw [hsp]; exact List.mem_cons_self _ _) h
        · exact ih l (by rw [hsp]; exact List.mem_cons_of_mem _ h)

/-- Splitting a newline-free string yields that single line. -/
theorem splitLines_no_nl (l : Str) (h : '\n' ∉ l) : splitLines l = [l] := by
  induction l with
  | nil => rfl
  | cons c rest ih =>
    have hc : c ≠ '\n' := fun he => h (by simp [he])
    have hr : '\n' ∉ rest := fun hm => h (List.mem_cons_of_mem _ hm)
    simp only [splitLines, if_neg hc, ih hr]

/-- Splitting peels off a leading newline-free line. -/
theorem splitLines_append_cons (l r : Str) (h : '\n' ∉ l) :
    splitLines (l ++ '\n' :: r) = l :: splitLines r := by
  induction l with
  | nil => simp [splitLines]
  | cons c rest ih =>
    have hc : c ≠ '\n' := fun he => h (by simp [he])
    have hr : '\n' ∉ rest := fun hm => h (List.mem_cons_of_mem _ hm)
    simp only [List.cons_append, splitLines, if_neg hc, List.append_eq]
    rw [ih hr]

/-- `splitLines` inverts `joinLines` on newline-free line lists. -/
theorem splitLines_joinLines (ls : List Str) (h1 : ls ≠ [])
    (h2 : ∀ l ∈ ls, '\n' ∉ l) : splitLines (joinLines ls) = ls := by
  induction ls with
  | nil => exact absurd rfl h1
  | cons l rest ih =>
    cases rest with
    | nil => exact splitLines_no_nl l (h2 l (List.mem_cons_self _ _))
    | cons l2 rest2 =>
      have : joinLines (l :: l2 :: rest2) = l ++ '\n' :: joinLines (l2 :: rest2) := rfl
      rw [this, splitLines_append_cons l _ (h2 l (List.mem_cons_self _ _)),
        ih (by simp) (fun x hx => h2 x (List.mem_cons_of_mem _ hx))]

/-- Space-run collapsing only emits spaces or characters of the input. -/
theorem mem_collapseSpaceRunsAux (b : Bool) (l : Str) (c : Char)
    (h : c ∈ collapseSpaceRunsAux b l) : c = ' ' ∨ c ∈ l := by
  induction l generalizing b with
  | nil => simp [collapseSpaceRunsAux] at h
  | cons d rest ih =>
    simp only [collapseSpaceRunsAux] at h
    split at h
    · split at h
      · rcases ih _ h with h' | h'
        · exact Or.inl h'
        · exact Or.inr (List.mem_cons_of_mem _ h')
      · rcases List.mem_cons.mp h with h' | h'
        · exact Or.inl h'
        · rcases ih _ h' with h'' | h''
          · exact Or.inl h''
          · exact Or.inr (List.mem_cons_of_mem _ h'')
    · rcases List.mem_cons.mp h with h' | h'
      · exact Or.inr (by simp [h'])
      · rcases ih _ h' with h'' | h''
        · exact Or.inl h''
        · exact Or.inr (List.mem_cons_of_mem _ h'')

/-- Membership transfers out of `takeWhile`. -/
theorem mem_of_takeWhile (p : Char → Bool) (l : Str) (x : Char)
    (h : x ∈ l.takeWhile p) : x ∈ l := by
  induction l with
  | nil => simp at h
  | cons c rest ih =>
    rw [List.takeWhile_cons] at h
    split at h
    · rcases List.mem_cons.mp h with h' | h'
      · simp [h']
      · exact List.mem_cons_of_mem _ (ih h')
    · simp at h

/-- Membership transfers out of `dropWhile`. -/
theorem mem_of_dropWhile (p : Char → Bool) (l : Str) (x : Char)
    (h : x ∈ l.dropWhile p) : x ∈ l := by
  induction l with
  | nil => simp at h
  | cons c rest ih =>
    rw [List.dropWhile_cons] at h
    split at h
    · exact List.mem_cons_of_mem _ (ih h)
    · exact h

/-- `takeWhile` only keeps characters satisfying the predicate. -/
theorem mem_takeWhile_sat (p : Char → Bool) (l : Str) (x : Char)
    (h : x ∈ l.takeWhile p) : p x = true := by
  induction l with
  | nil => simp at h
  | cons c rest ih =>
    rw [List.takeWhile_cons] at h
    split at h
    · rcases List.mem_cons.mp h with h' | h'
      · subst h'
        assumption
      · exact ih h'
    · simp at h

/-- `normalizeLine` introduces no newline. -/
theorem normalizeLine_no_nl (l : Str) (h : '\n' ∉ l) : '\n' ∉ normalizeLine l := by
  intro hmem
  rcases List.mem_append.mp hmem with h' | h'
  · exact h (mem_of_takeWhile _ _ _ h')
  · rcases mem_collapseSpaceRunsAux false _ _ h' with h'' | h''
    · exact absurd h''.symm (by decide)
    · exact h (mem_of_dropWhile _ _ _ (mem_of_takeWhile _ _ _ h''))

/-- `takeWhile` passes over a wholly-satisfying leading chunk. -/
theorem takeWhile_append_all (p : Char → Bool) (l1 l2 : Str) (h : ∀ x ∈ l1, p x) :
    (l1 ++ l2).takeWhile p = l1 ++ l2.takeWhile p := by
  induction l1 with
  | nil => simp
  | cons c rest ih =>
    have hc : p c = true := h c (List.mem_cons_self _ _)
    simp only [List.cons_append, List.takeWhile_cons, hc, if_pos]
    rw [ih (fun x hx => h x (List.mem_cons_of_mem _ hx))]

/-- The head surviving `dropWhile` fails the predicate. -/
theorem dropWhile_head_false (p : Char → Bool) (l : Str) (c : Char) (r : Str)
    (h : l.dropWhile p = c :: r) : p c = false := by
  induction l with
  | nil => simp at h
  | cons d rest ih =>
    simp only [List.dropWhile_cons] at h
    split at h
    · exact ih h
    · cases h
      rename_i hd
      simpa using hd

/-- A line terminator is in particular JS whitespace. -/
theorem jsLineTerm_isWs (c : Char) (h : isJsLineTerm c = true) :
    jsIsWsChar c = true := by
  simp only [isJsLineTerm, Bool.or_eq_true, beq_iff_eq] at h
  simp only [jsIsWsChar, Bool.or_eq_true, Bool.and_eq_true, beq_iff_eq,
    decide_eq_true_eq]
  omega

/-- `normalizeLine` leaves a line's leading whitespace intact. -/
theorem normalizeLine_takeWhile (l : Str) :
    (normalizeLine l).takeWhile jsIsWsChar = l.takeWhile jsIsWsChar := by
  unfold normalizeLine
  have hall : ∀ x ∈ l.takeWhile jsIsWsChar, jsIsWsChar x = true :=
    fun x hx => mem_takeWhile_sat _ _ _ hx
  rw [takeWhile_append_all _ _ _ hall]
  cases hd : l.dropWhile jsIsWsChar with
  | nil => simp [collapseSpaceRuns, collapseSpaceRunsAux]
  | cons c rest =>
    have hc : jsIsWsChar c = false := dropWhile_head_false _ _ _ _ hd
    have hterm : isJsLineTerm c = false := by
      cases hcase : isJsLineTerm c with
      | false => rfl
      | true => rw [jsLineTerm_isWs c hcase] at hc; cases hc
    have hcs : ¬(c = ' ') := by
      intro he
      rw [he] at hc
      simp [jsIsWsChar] at hc
    rw [List.takeWhile_cons, if_pos (by rw [hterm]; rfl)]
    simp only [collapseSpaceRuns, collapseSpaceRunsAux, if_neg hcs]
    simp [List.takeWhile_cons, hc]

/-- The space-collapse pass of normalizeWhitespace preserves every line's
leading whitespace. -/
theorem indentCollapsePass_indents (t : Str) :
    (splitLines (indentCollapsePass t)).map (fun l => l.takeWhile jsIsWsChar) =
      (splitLines t).map (fun l => l.takeWhile jsIsWsChar) := by
  unfold indentCollapsePass
  rw [splitLines_joinLines _ (by simpa using splitLines_ne_nil t)
    (by
      intro l hl
      obtain ⟨l0, hl0, rfl⟩ := List.mem_map.mp hl
      exact normalizeLine_no_nl l0 (nl_not_mem_splitLines t l0 hl0))]
  rw [List.map_map]
  exact List.map_congr_left (fun l _ => normalizeLine_takeWhile l)

/-- Eviction specification: over the cap, the result has exactly
`maxC` entries and every removed entry ranks no higher than every kept
entry in the (count, lastSeen) preorder. -/
theorem evict_spec (l : CandMap) (maxC : Nat)
    (hnd : (l.map Prod.fst).Nodup) (hlen : maxC < l.length) :
    (evictIfNeeded l maxC).length = maxC ∧
    ∀ e ∈ l, e ∉ evictIfNeeded l maxC → ∀ e' ∈ evictIfNeeded l maxC, rankLe e e' := by
  have hnotle : ¬l.length ≤ maxC := by omega
  set sorted := List.insertionSort rankLe l with hsorted_def
  set k := l.length - maxC with hk
  set rem := (sorted.take k).map Prod.fst with hrem
  set p : Str × CandidatePattern → Bool := fun e => decide (e.1 ∉ rem) with hp
  have hev : evictIfNeeded l maxC = l.filter p := by
    unfold evictIfNeeded
    rw [if_neg hnotle]
  have hperm : sorted.Perm l := List.perm_insertionSort rankLe l
  have hpair : List.Pairwise rankLe sorted := List.sorted_insertionSort rankLe l
  have hndmap : (sorted.map Prod.fst).Nodup := ((hperm.map Prod.fst).nodup_iff).mpr hnd
  have hndsorted : sorted.Nodup := hndmap.of_map
  have hinj : ∀ x ∈ sorted, ∀ y ∈ sorted, x.1 = y.1 → x = y :=
    List.inj_on_of_nodup_map hndmap
  have hsplit : sorted.take k ++ sorted.drop k = sorted := List.take_append_drop k sorted
  have hdisjnodup : List.Disjoint (sorted.take k) (sorted.drop k) := by
    have : (sorted.take k ++ sorted.drop k).Nodup := by rw [hsplit]; exact hndsorted
    exact (List.nodup_append.mp this).2.2
  have hdrop_not_rem : ∀ y ∈ sorted.drop k, y.1 ∉ rem := by
    intro y hy hmem
    rw [hrem] at hmem
    obtain ⟨x, hx, hxy⟩ := List.mem_map.mp hmem
    have hx' : x ∈ sorted := by rw [← hsplit]; exact List.mem_append_left _ hx
    have hy' : y ∈ sorted := by rw [← hsplit]; exact List.mem_append_right _ hy
    have hxeq : x = y := hinj x hx' y hy' hxy
    subst hxeq
    exact hdisjnodup hx hy
  have htake_rem : ∀ x ∈ sorted.take k, x.1 ∈ rem := by
    intro x hx
    rw [hrem]
    exact List.mem_map_of_mem _ hx
  have hfperm : (l.filter p).Perm (sorted.filter p) := (hperm.filter p).symm
  have hfil : sorted.filter p = sorted.drop k := by
    conv_lhs => rw [← hsplit]
    rw [List.filter_append]
    have h1 : (sorted.take k).filter p = [] := by
      rw [List.filter_eq_nil_iff]
      intro a ha
      simp only [hp, decide_eq_true_eq, Decidable.not_not]
      exact htake_rem a ha
    have h2 : (sorted.drop k).filter p = sorted.drop k := by
      rw [List.filter_eq_self]
      intro a ha
      simp only [hp, decide_eq_true_eq]
      exact hdrop_not_rem a ha
    rw [h1, h2, List.nil_append]
  constructor
  · rw [hev, hfperm.length_eq, hfil, List.length_drop, hperm.length_eq]
    omega
  · intro e he hne e' he'
    rw [hev] at hne he'
    have hpe : p e = false := by
      cases hcase : p e with
      | false => rfl
      | true => exact absurd (List.mem_filter.mpr ⟨he, hcase⟩) hne
    have hmem_rem : e.1 ∈ rem := by
      simp only [hp, decide_eq_false_iff_not, Decidable.not_not] at hpe
      exact hpe
    have he_take : e ∈ sorted.take k := by
      obtain ⟨x, hx, hxe⟩ := List.mem_map.mp (by rw [hrem] at hmem_rem; exact hmem_rem)
      have hx' : x ∈ sorted := by rw [← hsplit]; exact List.mem_append_left _ hx
      have he_sorted : e ∈ sorted := hperm.mem_iff.mpr he
      have : x = e := hinj x hx' e he_sorted hxe
      subst this
      exact hx
    have he'_drop : e' ∈ sorted.drop k := by
      have : e' ∈ sorted.filter p := (hfperm.mem_iff).mp he'
      rw [hfil] at this
      exact this
    have hp3 := (List.pairwise_append.mp (by rw [hsplit]; exact hpair)).2.2
    exact hp3 e he_take e' he'_drop

/-- Acronym construction succeeds on nonempty words and upper-cases each
word's first letter. -/
theorem acronymOf_eq (ws : List Str) (h : ∀ w ∈ ws, w ≠ []) :
    acronymOf ws = some (ws.map fun w => asciiUpperChar (w.headD ' ')) := by
  induction ws with
  | nil => rfl
  | cons w rest ih =>
    cases w with
    | nil => exact absurd rfl (h [] (List.mem_cons_self _ _))
    | cons c cs =>
      simp only [acronymOf, ih (fun x hx => h x (List.mem_cons_of_mem _ hx)),
        Option.map_some', List.map_cons, List.headD_cons]

/-- Acronym construction hits the empty word and throws (returns
`none`) as soon as any word of the list is empty. -/
theorem acronymOf_none (ws : List Str) (h : [] ∈ ws) : acronymOf ws = none := by
  induction ws with
  | nil => simp at h
  | cons w rest ih =>
    cases w with
    | nil => rfl
    | cons c cs =>
      rcases List.mem_cons.mp h with h' | h'
      · cases h'
      · simp only [acronymOf, ih h', Option.map_none']

/-- On phrases whose split words are all nonempty, the source's
`suggestReplacement` returns normally and agrees with the spec-worded
definition. -/
theorem suggestReplacement_refines (p : Str) (h : ∀ w ∈ jsSplitWs p, w ≠ []) :
    suggestReplacement p = Except.ok (suggestReplacementSpec p) := by
  simp only [suggestReplacement, suggestReplacementSpec]
  rw [acronymOf_eq (jsSplitWs p) h]
  dsimp only
  by_cases h25 : 2 ≤ (jsSplitWs p).length ∧ (jsSplitWs p).length ≤ 5
  · rw [if_pos h25, if_pos h25]
    by_cases hsh :
        2 * ((jsSplitWs p).map fun w => asciiUpperChar (w.headD ' ')).length < p.length
    · rw [if_pos hsh, if_pos hsh]
    · rw [if_neg hsh, if_neg hsh,
        if_neg (by omega : ¬((jsSplitWs p).length = 1 ∧ 10 ≤ p.length))]
  · rw [if_neg h25, if_neg h25]
    by_cases h1 : (jsSplitWs p).length = 1 ∧ 10 ≤ p.length
    · rw [if_pos h1, if_pos h1]
      cases shorteningsLookup p <;> rfl
    · rw [if_neg h1, if_neg h1]

/-- In-place update by key makes the key map to the new value. -/
theorem lookupKey_map_update (m : List (Str × Str)) (k v : Str)
    (hs : (lookupKey k m).isSome) :
    lookupKey k (m.map fun e => if e.1 = k then (e.1, v) else e) = some v := by
  induction m with
  | nil => simp [lookupKey] at hs
  | cons e rest ih =>
    by_cases he : e.1 = k
    · simp only [List.map_cons, if_pos he, lookupKey, if_pos he]
    · simp only [List.map_cons, if_neg he, lookupKey] at hs ⊢
      exact ih hs

/-- Appending a fresh binding makes the key map to the new value. -/
theorem lookupKey_append_new (m : List (Str × Str)) (k v : Str)
    (hn : lookupKey k m = none) :
    lookupKey k (m ++ [(k, v)]) = some v := by
  induction m with
  | nil => simp [lookupKey]
  | cons e rest ih =>
    simp only [lookupKey] at hn
    by_cases he : e.1 = k
    · rw [if_pos he] at hn; cases hn
    · rw [if_neg he] at hn
      simp only [List.cons_append, lookupKey, if_neg he]
      exact ih hn

/-- `obj[key] = val` always leaves `key` bound to `val`. -/
theorem lookupKey_setAssoc (m : List (Str × Str)) (k v : Str) :
    lookupKey k (setAssoc m k v) = some v := by
  unfold setAssoc
  split_ifs with hs
  · exact lookupKey_map_update m k v hs
  · exact lookupKey_append_new m k v (Option.not_isSome_iff_eq_none.mp hs)

/-- The reported reduction percent is antitone in the compressed token
count for a fixed positive original count. -/
theorem reductionPercent_antitone (o c1 c2 : Nat) (ho : 0 < o) (h : c1 ≤ c2) :
    reductionPercent o c2 ≤ reductionPercent o c1 := by
  unfold reductionPercent jsRound
  rw [if_pos ho, if_pos ho]
  have ho' : (0 : ℚ) < o := by exact_mod_cast ho
  have hc : (c1 : ℚ) ≤ c2 := by exact_mod_cast h
  have hdiv : ((o : ℚ) - c2) / o ≤ ((o : ℚ) - c1) / o :=
    (div_le_div_iff_of_pos_right ho').mpr (by linarith)
  have hsub : ((o : ℚ) - c2) / o * 10000 ≤ ((o : ℚ) - c1) / o * 10000 :=
    mul_le_mul_of_nonneg_right hdiv (by norm_num)
  have hfloor : Int.floor (((o : ℚ) - c2) / o * 10000 + 1 / 2) ≤
      Int.floor (((o : ℚ) - c1) / o * 10000 + 1 / 2) :=
    Int.floor_le_floor (by linarith)
  have hcast : ((Int.floor (((o : ℚ) - c2) / o * 10000 + 1 / 2) : ℚ)) ≤
      ((Int.floor (((o : ℚ) - c1) / o * 10000 + 1 / 2) : ℚ)) := by exact_mod_cast hfloor
  exact (div_le_div_iff_of_pos_right (by norm_num : (0 : ℚ) < 100)).mpr hcast

/-- C1: the claim says every fenced code block, inline code span or bare
URL in the input reappears unchanged in `Pipeline.compress`'s output at
every level.  Evaluating the embedded pipeline refutes this: the input
consisting of the inline code span `` `$'` `` (matched by the preserver's
own inline-code pattern at offset 0, length 4) compresses at level
`light` to `` `` ``, in which that span does not occur — `restore` feeds
the original text through `String.replace`'s `$`-substitution, so `$'`
expands to the text following the placeholder. -/
theorem C1_inline_code_not_preserved :
    inlineLenAt (str ("`$'`")) 0 = some 4 ∧
    compressText CompressionLevel.light emptyDict [] (str ("`$'`")) = str ("``") ∧
    ∀ a b : Str, str ("``") ≠ a ++ str ("`$'`") ++ b := by
  refine ⟨rfl, rfl, ?_⟩
  intro a b h
  have hlen := congrArg List.length h
  rw [List.length_append, List.length_append] at hlen
  rw [show (str ("``")).length = 2 from rfl, show (str ("`$'`")).length = 4 from rfl] at hlen
  omega

/-- C2: the claim says `restore` applied to `extract`'s output yields
exactly the original input, every placeholder replaced by its original
text.  Evaluating the embedding refutes this: extracting the inline code
span `` `$'` `` and restoring yields `` `` `` — `String.replace` with a
string replacement expands `$'` to the portion of the string after the
placeholder instead of inserting it literally. -/
theorem C2_extract_restore_not_roundtrip :
    restore (extract (str ("`$'`")) []).processed (extract (str ("`$'`")) []).regions =
      str ("``") ∧
    str ("``") ≠ str ("`$'`") :=
  ⟨rfl, by decide⟩

/-- C3 (counterexample): for the fixed text `"aaaa"` and a dictionary
whose substitution replacement is longer than the matched phrase, the
reported reduction percent at `medium` (−400) is strictly below the
percent at `light` (0), refuting `medium ≥ light`. -/
theorem C3_percent_not_monotonic :
    compressReductionPercent CompressionLevel.medium expandingDict [] (str ("aaaa")) <
      compressReductionPercent CompressionLevel.light expandingDict [] (str ("aaaa"))
    := by
  unfold compressReductionPercent
  rw [show compressText CompressionLevel.light expandingDict [] (str ("aaaa")) =
      str ("aaaa") from rfl,
    show compressText CompressionLevel.medium expandingDict [] (str ("aaaa")) =
      str ("bbbbbbbbbbbbbbbbbbbb") from rfl,
    show approxCount (str ("aaaa")) = 1 from rfl,
    show approxCount (str ("bbbbbbbbbbbbbbbbbbbb")) = 5 from rfl]
  norm_num [reductionPercent, jsRound]

/-- C3 (amended): the level stage lists are nested — `medium` runs
`light`'s stages plus `semantic`, `aggressive` runs `medium`'s plus
`structural` and `shorthand` — and the reported reduction percent is
antitone in the compressed token count for a fixed positive original
count, so the percent ordering `aggressive ≥ medium ≥ light` holds
whenever the compressed token counts are ordered the other way.  The
converse fails: rounding to two decimals can tie the percents of
distinct compressed counts, as the last conjunct shows at original count
20000 and compressed counts 10 and 11. -/
theorem C3_levels_nested_and_percent_antitone :
    LEVEL_STAGES CompressionLevel.medium =
      LEVEL_STAGES CompressionLevel.light ++ ["semantic"] ∧
    LEVEL_STAGES CompressionLevel.aggressive =
      LEVEL_STAGES CompressionLevel.medium ++ ["structural", "shorthand"] ∧
    (∀ o c1 c2 : Nat, 0 < o → c1 ≤ c2 →
      reductionPercent o c2 ≤ reductionPercent o c1) ∧
    reductionPercent 20000 10 = reductionPercent 20000 11 :=
  ⟨rfl, rfl, reductionPercent_antitone, by norm_num [reductionPercent, jsRound]⟩

/-- C3 (witness): the antitone part applied at original count 4 and
compressed counts 2 ≤ 3. -/
theorem C3_levels_nested_and_percent_antitone_witness :
    reductionPercent 4 3 ≤ reductionPercent 4 2 :=
  C3_levels_nested_and_percent_antitone.2.2.1 4 2 3 (by decide) (by decide)

/-- C4: `stagesForLevel` returns exactly `["cleanup"]` for light,
`["cleanup", "semantic"]` for medium, and
`["cleanup", "semantic", "structural", "shorthand"]` for aggressive. -/
theorem C4_stagesForLevel_exact :
    stagesForLevel CompressionLevel.light = ["cleanup"] ∧
    stagesForLevel CompressionLevel.medium = ["cleanup", "semantic"] ∧
    stagesForLevel CompressionLevel.aggressive =
      ["cleanup", "semantic", "structural", "shorthand"] :=
  ⟨rfl, rfl, rfl⟩

/-- C5 (counterexample): the claim says every line surviving in the
cleanup stage's output retains its original leading whitespace.  On
input `"x\n    y"` with the empty dictionary the stage outputs
`"x\n y"`: its surviving second line `" y"` has the same trimmed content
as the original `"    y"` but different leading whitespace (the final
whitespace pass collapses the 4-space indent to one space). -/
theorem C5_indent_not_preserved :
    cleanupProcessText emptyDict (str ("x\n    y")) = str ("x\n y") ∧
    ∃ l ∈ splitLines (cleanupProcessText emptyDict (str ("x\n    y"))),
      ∀ l' ∈ splitLines (str ("x\n    y")),
        trimJs l' = trimJs l → l'.takeWhile jsIsWsChar ≠ l.takeWhile jsIsWsChar := by
  constructor
  · rfl
  · decide

/-- C5 (amended): the whitespace-normalization step does collapse runs of
2+ interior spaces per line while preserving each line's leading
whitespace (first conjunct, for every input), but the stage's final
whitespace pass then collapses all remaining 2+ space runs — leading
indentation included — and trims, as the concrete run shows. -/
theorem C5_interior_collapse_preserves_indent_until_final_pass :
    (∀ t : Str,
      (splitLines (indentCollapsePass t)).map (fun l => l.takeWhile jsIsWsChar) =
        (splitLines t).map (fun l => l.takeWhile jsIsWsChar)) ∧
    cleanupProcessText emptyDict (str ("x\n    y")) = str ("x\n y") :=
  ⟨indentCollapsePass_indents, rfl⟩

/-- C6: the Shorthand stage never removes an article standing at the very
start of a sentence.  First conjunct: every article-removal change is at
an offset that is neither 0 nor directly preceded by a period or newline.
Second: if every article match in a text is at a sentence start (or in a
placeholder), article removal returns the text unchanged.  Third: a
concrete aggressive-level run of the stage keeps the sentence-initial
`The` while dropping the mid-sentence `a`. -/
theorem C6_sentence_start_articles_kept :
    (∀ (t : Str) (ch : Change), ch ∈ (removeArticles t).2 →
      ¬(ch.position = 0 ∨ charAt? t (ch.position - 1) = some '.' ∨
        charAt? t (ch.position - 1) = some '\n')) ∧
    (∀ t : Str, articleAllGuardedB t = true → (removeArticles t).1 = t) ∧
    shorthandProcessText CompressionLevel.aggressive (str ("The cat is on a mat.")) =
      str ("The cat is on mat.") := by
  refine ⟨?_, ?_, by rfl⟩
  · intro t ch h
    obtain ⟨j, a, hs, hch⟩ := runScan_changes _ _ _ h
    unfold articleStep at hs
    cases ham : articleMatchAt t j with
    | none => rw [ham] at hs; cases hs
    | some p =>
      obtain ⟨alen, w⟩ := p
      rw [ham] at hs
      split_ifs at hs with hip hstart
      · cases hs; simp at hch
      · cases hs; simp at hch
      · cases hs
        simp only [List.mem_singleton] at hch
        subst hch
        simp only [Bool.or_eq_true, beq_iff_eq, decide_eq_true_eq] at hstart
        intro hcon
        exact hstart (by tauto)
  · intro t hg
    have hid := scanAux_id (articleStep t) t ?_ t.length 0
    · simpa [runScan, removeArticles] using hid
    · intro j a hs
      unfold articleStep at hs
      cases ham : articleMatchAt t j with
      | none => rw [ham] at hs; cases hs
      | some p =>
        obtain ⟨alen, w⟩ := p
        have hlen : 1 ≤ alen ∧ 1 ≤ w := articleMatchAt_pos t j alen w ham
        have hj : j < t.length := by
          by_contra hge
          rw [articleMatchAt_none_of_ge t j (by omega)] at ham
          cases ham
        have hguard := (List.all_eq_true.mp hg) j (List.mem_range.mpr hj)
        rw [ham] at hguard
        rw [ham] at hs
        split_ifs at hs with hip hstart
        · cases hs
          exact ⟨rfl, by show 1 ≤ alen + w; omega⟩
        · cases hs
          exact ⟨rfl, by show 1 ≤ alen + w; omega⟩
        · exfalso
          rcases (Bool.or_eq_true _ _).mp hguard with hg1 | hg2
          · exact hip hg1
          · exact hstart hg2

/-- C6 (witness): the guard theorem applied to the change actually
emitted on `"on a mat"` (position 3, not a sentence start), and the
identity part applied to `"The cat sat"`, whose only article match is at
offset 0. -/
theorem C6_sentence_start_articles_kept_witness :
    ¬((3 : Nat) = 0 ∨ charAt? (str ("on a mat")) 2 = some '.' ∨
      charAt? (str ("on a mat")) 2 = some '\n') ∧
    (removeArticles (str ("The cat sat"))).1 = str ("The cat sat") :=
  ⟨C6_sentence_start_articles_kept.1 (str ("on a mat"))
      ⟨str ("a"), [], 3, "shorthand:article"⟩ (by decide),
    C6_sentence_start_articles_kept.2.1 (str ("The cat sat")) (by decide)⟩

/-- C7: the Semantic stage never abbreviates a word occurrence that is
part of a larger identifier: every abbreviation change is emitted at a
position where `isPartOfIdentifier` (and the placeholder guard) is false;
in particular, with the abbreviation `function → fn`, the identifiers in
`myFunction()` and `my_function` are left untouched while a free-standing
`function` is abbreviated. -/
theorem C7_identifier_guard :
    (∀ (t w abbr : Str) (ch : Change), ch ∈ (applyAbbrWord w abbr t).2 →
      isPartOfIdentifier t ch.position w.length = false ∧
      isInPreservedRegion ch.position t = false) ∧
    semanticProcessText CompressionLevel.medium fnDict (str ("myFunction()")) =
      str ("myFunction()") ∧
    semanticProcessText CompressionLevel.medium fnDict (str ("my_function")) =
      str ("my_function") ∧
    semanticProcessText CompressionLevel.medium fnDict (str ("Call the function here.")) =
      str ("Call the fn here.") := by
  refine ⟨?_, rfl, rfl, rfl⟩
  intro t w abbr ch h
  obtain ⟨j, a, hs, hch⟩ := runScan_changes _ _ _ h
  unfold abbrStep at hs
  split_ifs at hs with hm hip hpid
  · cases hs; simp at hch
  · cases hs; simp at hch
  · cases hs
    simp only [List.mem_singleton] at hch
    subst hch
    exact ⟨Bool.eq_false_iff.mpr hpid, Bool.eq_false_iff.mpr hip⟩

/-- C7 (witness): the guard theorem applied to the change actually
emitted when abbreviating `function` in `"use function here"`. -/
theorem C7_identifier_guard_witness :
    isPartOfIdentifier (str ("use function here")) 4 (str ("function")).length = false ∧
    isInPreservedRegion 4 (str ("use function here")) = false :=
  C7_identifier_guard.1 (str ("use function here")) (str ("function")) (str ("fn"))
    ⟨str ("function"), str ("fn"), 4, "semantic:abbreviation"⟩ (by decide)

/-- C8: whenever `addCandidate` pushes the candidate set past the cap,
eviction returns to exactly `maxCandidates` entries and removes only
lowest-ranked entries (ascending count, ties by ascending lastSeen):
every evicted entry ranks no higher than every kept one.  The spec's
scenario (cap 3; five distinct phrases with counts 2, 3, 1, 1, 1 in
arrival order) leaves exactly 3 candidates whose top two by descending
count are the count-3 and count-2 phrases. -/
theorem C8_eviction_policy :
    (∀ (cs : CandMap) (phrase : Str) (sugg : Option Str) (maxC now : Nat),
      ((insertCandidate cs phrase sugg now).map Prod.fst).Nodup →
      maxC < (insertCandidate cs phrase sugg now).length →
      (addCandidate cs phrase sugg maxC now).length = maxC ∧
      ∀ e ∈ insertCandidate cs phrase sugg now,
        e ∉ addCandidate cs phrase sugg maxC now →
        ∀ e' ∈ addCandidate cs phrase sugg maxC now, rankLe e e') ∧
    evictDemo8.length = 3 ∧
    ((getCandidates evictDemo8).take 2).map (fun c => (c.phrase, c.count)) =
      [(str ("phrase b"), 3), (str ("phrase a"), 2)] :=
  ⟨fun cs phrase sugg maxC now hnd hlen =>
    evict_spec (insertCandidate cs phrase sugg now) maxC hnd hlen,
   by decide, by decide⟩

/-- C8 (witness): the eviction theorem applied at the scenario's fifth
insertion (cap 3 exceeded), leaving exactly 3 candidates. -/
theorem C8_eviction_policy_witness :
    (addCandidate evictDemo7 (str ("phrase e")) (some (str ("PE"))) 3 8).length = 3 :=
  (C8_eviction_policy.1 evictDemo7 (str ("phrase e")) (some (str ("PE"))) 3 8
    (by decide) (by decide)).1

/-- C9 (counterexample): the claim says `suggestReplacement` returns a
value for every phrase, null outside the enumerated cases.  On the
phrase `" a"` — two whitespace-split words, the first empty — the source
instead throws a TypeError while building the acronym (`w[0]` is
`undefined`), modelled as `Except.error ()`. -/
theorem C9_crash_on_leading_space :
    suggestReplacement (str (" a")) = Except.error () := rfl

/-- C9 (amended): restricted to phrases whose whitespace-split words are
all nonempty (no leading/trailing whitespace), `suggestReplacement`
returns normally and agrees with the claim's stated case analysis
(first conjunct).  A phrase of 2–5 split words at least one of which is
empty instead throws a TypeError while building the acronym (second
conjunct); an empty split word outside that branch does not throw — the
6-word `" a b c d e"` still returns null (third conjunct).  The four
concrete scenarios evaluate as claimed. -/
theorem C9_suggestReplacement_amended :
    (∀ p : Str, (∀ w ∈ jsSplitWs p, w ≠ []) →
      suggestReplacement p = Except.ok (suggestReplacementSpec p)) ∧
    (∀ p : Str, 2 ≤ (jsSplitWs p).length → (jsSplitWs p).length ≤ 5 →
      [] ∈ jsSplitWs p → suggestReplacement p = Except.error ()) ∧
    suggestReplacement (str (" a b c d e")) = Except.ok none ∧
    suggestReplacement (str ("machine learning model")) =
      Except.ok (some (str ("MLM"))) ∧
    suggestReplacement (str ("a b")) = Except.ok none ∧
    suggestReplacement (str ("configuration")) = Except.ok (some (str ("config"))) ∧
    suggestReplacement (str ("something")) = Except.ok none := by
  refine ⟨suggestReplacement_refines, ?_, rfl, rfl, rfl, rfl, rfl⟩
  intro p h2 h5 hmem
  simp only [suggestReplacement]
  rw [acronymOf_none (jsSplitWs p) hmem, if_pos (And.intro h2 h5)]

/-- C9 (witness): the refinement applied to the concrete phrase
`"machine learning model"`, and the crash branch applied to `" x y"`
(three split words, the first empty). -/
theorem C9_suggestReplacement_amended_witness :
    (suggestReplacement (str ("machine learning model")) =
      Except.ok (suggestReplacementSpec (str ("machine learning model")))) ∧
    suggestReplacement (str (" x y")) = Except.error () :=
  ⟨C9_suggestReplacement_amended.1 (str ("machine learning model")) (by decide),
   C9_suggestReplacement_amended.2.1 (str (" x y")) (by decide) (by decide) (by decide)⟩

/-- C10: `promote` always returns `true` and binds the lower-cased phrase
to the replacement in the promoted map, even when no candidate with that
key exists; it never signals an unknown phrase, unlike `reject`, which
returns `false` when the candidate is missing. -/
theorem C10_promote_never_fails :
    (∀ (d : LearnedData) (phrase repl : Str),
      (promote d phrase repl).2 = true ∧
      lookupKey (lowerStr phrase) (promote d phrase repl).1.promoted = some repl) ∧
    (∀ (d : LearnedData) (phrase : Str),
      lookupKey (lowerStr phrase) d.candidates = none →
      (reject d phrase).2 = false) := by
  constructor
  · intro d phrase repl
    exact ⟨rfl, lookupKey_setAssoc d.promoted (lowerStr phrase) repl⟩
  · intro d phrase h
    simp [reject, h]

/-- C10 (witness): promoting an unknown phrase into the empty store
succeeds and binds it; rejecting an unknown phrase returns false. -/
theorem C10_promote_never_fails_witness :
    ((promote ⟨[], []⟩ (str ("Some Phrase")) (str ("SP"))).2 = true ∧
      lookupKey (lowerStr (str ("Some Phrase")))
        (promote ⟨[], []⟩ (str ("Some Phrase")) (str ("SP"))).1.promoted =
        some (str ("SP"))) ∧
    (reject ⟨[], []⟩ (str ("nope"))).2 = false :=
  ⟨C10_promote_never_fails.1 ⟨[], []⟩ (str ("Some Phrase")) (str ("SP")),
   C10_promote_never_fails.2 ⟨[], []⟩ (str ("nope")) (by decide)⟩

end Tksq
